import Mathlib

/-!
Verification development for the filesystem-mcp-server repository.

The definitions below are shallow embeddings of the TypeScript source:
  - `compareFiles`, `computeDifferences`, `diffAt`, `splitNl`, `collapseWSAux`,
    `trimChars`, `jsToLower` embed `AdvancedOperations.compareFiles`;
  - the cache definitions embed `FileSystemMCPServer.getCachedData` /
    `setCachedData` and the resource read handlers;
  - the watcher-registry definitions embed `AdvancedOperations.watchFile` /
    `stopWatching` and the per-watch event accumulation;
  - the filesystem-state definitions embed `FileOperations.readFile` /
    `writeFile` / `deleteFile`;
  - the search definitions embed `AdvancedOperations.searchInFiles`.

File contents are modelled as `List Char` (JS strings) or `List Nat`
(Node `Buffer` bytes); external collaborators (the regex engine, the
UTF-8/encoding codecs of `Buffer`) are abstracted as function parameters.
-/

namespace FsMcp

/-! ### compareFiles (src advanced-operations: `AdvancedOperations.compareFiles`) -/

/-- One line of text, as a JS string (sequence of characters). -/
abbrev Line := List Char

/-- Difference kinds reported by `compareFiles`. -/
inductive DiffType where
  | added
  | removed
  | modified
deriving DecidableEq, Repr

/-- One entry of the `differences` array built by `compareFiles`. -/
structure Difference where
  line : Nat
  dtype : DiffType
  content : Line
deriving DecidableEq, Repr

/-- The loop body of the positional diff in `compareFiles`:
`line1 = lines1[i] || ''`, `line2 = lines2[i] || ''`; if they differ, the
difference is `added` when `i >= lines1.length`, `removed` when
`i >= lines2.length`, and `modified` (with both contents) otherwise. -/
def diffAt (lines1 lines2 : List Line) (i : Nat) : Option Difference :=
  let line1 := lines1.getD i []
  let line2 := lines2.getD i []
  if line1 = line2 then
    none
  else if lines1.length ≤ i then
    some ⟨i + 1, DiffType.added, line2⟩
  else if lines2.length ≤ i then
    some ⟨i + 1, DiffType.removed, line1⟩
  else
    some ⟨i + 1, DiffType.modified, '-' :: ' ' :: line1 ++ '\n' :: '+' :: ' ' :: line2⟩

/-- The `for (let i = 0; i < maxLines; i++)` loop of `compareFiles`
collecting the differences in index order. -/
def computeDifferences (lines1 lines2 : List Line) : List Difference :=
  (List.range (max lines1.length lines2.length)).filterMap (diffAt lines1 lines2)

/-- The whitespace class of the JS regex `\s` (the characters relevant to
this code base; `replace(/\s+/g, ' ')` rewrites maximal runs of these). -/
def isJsWhitespace (c : Char) : Bool :=
  c = ' ' || c = '\t' || c = '\n' || c = '\r' ||
  c = '\x0b' || c = '\x0c' || c = '\u00A0' || c = '\uFEFF'

/-- `content.replace(/\s+/g, ' ')`: each maximal whitespace run becomes a
single space.  The boolean records whether the previous character was part
of a whitespace run. -/
def collapseWSAux : Bool → List Char → List Char
  | _, [] => []
  | prevWS, c :: rest =>
    if isJsWhitespace c then
      if prevWS then collapseWSAux true rest
      else ' ' :: collapseWSAux true rest
    else
      c :: collapseWSAux false rest

/-- `String.prototype.trim`: strip leading and trailing whitespace. -/
def trimChars (l : List Char) : List Char :=
  ((l.dropWhile isJsWhitespace).reverse.dropWhile isJsWhitespace).reverse

/-- External collaborator `String.prototype.toLowerCase`, modelled on the
ASCII range (the only case mapping this development relies on). -/
def jsToLower (c : Char) : Char :=
  if 'A' ≤ c && c ≤ 'Z' then Char.ofNat (c.toNat + 32) else c

/-- The normalization pipeline of `compareFiles`: collapse whitespace and
trim when `ignoreWhitespace`, then lowercase when `ignoreCase`. -/
def processContent (c : List Char) (ignoreWhitespace ignoreCase : Bool) : List Char :=
  let p := if ignoreWhitespace then trimChars (collapseWSAux false c) else c
  if ignoreCase then p.map jsToLower else p

/-- `content.split('\n')` (JS semantics: always at least one element;
a trailing newline yields a final empty element). -/
def splitNl : List Char → List Line
  | [] => [[]]
  | c :: rest =>
    let r := splitNl rest
    if c = '\n' then [] :: r
    else
      match r with
      | [] => [[c]]
      | h :: t => (c :: h) :: t

/-- The `data` payload assembled by `compareFiles`. -/
structure CompareData where
  identical : Bool
  differences : List Difference
  totalDifferences : Nat
  file1Lines : Nat
  file2Lines : Nat
deriving DecidableEq, Repr

/-- `AdvancedOperations.compareFiles` on two readable files with contents
`c1`, `c2`: normalize per the flags, split on newlines, then the positional
diff. -/
def compareFiles (c1 c2 : List Char) (ignoreWhitespace ignoreCase : Bool) : CompareData :=
  let p1 := processContent c1 ignoreWhitespace ignoreCase
  let p2 := processContent c2 ignoreWhitespace ignoreCase
  let lines1 := splitNl p1
  let lines2 := splitNl p2
  let diffs := computeDifferences lines1 lines2
  { identical := diffs.length == 0
    differences := diffs
    totalDifferences := diffs.length
    file1Lines := lines1.length
    file2Lines := lines2.length }

/-! ### TTL cache and resource fetches (src/server.ts: `FileSystemMCPServer`) -/

/-- `DEFAULT_CACHE_TTL = 5 * 60 * 1000`. -/
def DEFAULT_CACHE_TTL : Nat := 5 * 60 * 1000

/-- `FILE_WATCH_CACHE_TTL = 30 * 1000`. -/
def FILE_WATCH_CACHE_TTL : Nat := 30 * 1000

/-- One entry of `this.cache`: `{ data, timestamp, ttl }`. -/
structure CacheEntry (α : Type) where
  data : α
  timestamp : Nat
  ttl : Nat
deriving DecidableEq, Repr

/-- The `Map<string, CacheEntry>` cache, as an association list keyed by the
cache-key string. -/
abbrev Cache (α : Type) := List (String × CacheEntry α)

/-- `Map.get`. -/
def cacheLookup (cache : Cache α) (key : String) : Option (CacheEntry α) :=
  (cache.find? (fun e => e.1 = key)).map (fun e => e.2)

/-- `Map.delete`. -/
def cacheErase (cache : Cache α) (key : String) : Cache α :=
  cache.filter (fun e => e.1 ≠ key)

/-- `getCachedData`: absent on a miss; on a stale entry
(`now - timestamp > ttl`) the entry is deleted and the result is absent;
otherwise the stored data is returned.  The second component is the cache
after the (lazy) eviction. -/
def getCachedData (cache : Cache α) (now : Nat) (key : String) :
    Option α × Cache α :=
  match cacheLookup cache key with
  | none => (none, cache)
  | some e =>
    if now - e.timestamp > e.ttl then (none, cacheErase cache key)
    else (some e.data, cache)

/-- `setCachedData`: unconditional overwrite with a fresh timestamp. -/
def setCachedData (cache : Cache α) (now : Nat) (key : String) (data : α)
    (ttl : Nat) : Cache α :=
  (key, ⟨data, now, ttl⟩) :: cacheErase cache key

/-- The resource payloads stored in the cache all have the shape
`{ ...computed fields..., cached, timestamp }`. -/
structure ResourceData (α : Type) where
  value : α
  cached : Bool
  timestamp : Nat
deriving DecidableEq, Repr

/-- JS aliasing of `data.cached = true` on a hit: the stored entry's data is
updated in place (its `timestamp`/`ttl` bookkeeping fields are untouched). -/
def cacheOverwriteData (cache : Cache (ResourceData α)) (key : String)
    (d : ResourceData α) : Cache (ResourceData α) :=
  cache.map (fun e => if e.1 = key then (e.1, { e.2 with data := d }) else e)

/-- The common body of every resource read handler in
`setupResourceHandlers`: consult `getCachedData`; on a miss compute the
value, tag it `cached: false` with the current timestamp and store it; on a
hit set `cached = true` on the (shared) stored object and return it. -/
def fetchResource (cache : Cache (ResourceData α)) (now : Nat) (key : String)
    (compute : α) (ttl : Nat) : ResourceData α × Cache (ResourceData α) :=
  match (getCachedData cache now key).1 with
  | some d =>
    let d2 := { d with cached := true }
    (d2, cacheOverwriteData (getCachedData cache now key).2 key d2)
  | none =>
    let d : ResourceData α := ⟨compute, false, now⟩
    (d, setCachedData (getCachedData cache now key).2 now key d ttl)

/-! ### Watcher registry and watch events
(src advanced-operations: `AdvancedOperations.watchers` / `watchFile` /
`stopWatching`) -/

/-- `AdvancedOperations.watchers : Map<string, chokidar.FSWatcher>`, keyed by
the literal path string; the opaque watcher handle is a `Nat` id. -/
abbrev WatcherRegistry := List (String × Nat)

/-- `Map.get(path) !== undefined`. -/
def registryLookup (reg : WatcherRegistry) (p : String) : Option Nat :=
  (reg.find? (fun e => e.1 = p)).map (fun e => e.2)

/-- `Map.delete(path)`. -/
def registryErase (reg : WatcherRegistry) (p : String) : WatcherRegistry :=
  reg.filter (fun e => e.1 ≠ p)

/-- `Map.set(path, watcher)`. -/
def registrySet (reg : WatcherRegistry) (p : String) (id : Nat) : WatcherRegistry :=
  (p, id) :: registryErase reg p

/-- Number of registrations stored at exactly the path string `p`. -/
def registrationCount (reg : WatcherRegistry) (p : String) : Nat :=
  reg.countP (fun e => e.1 = p)

/-- Result shape of `stopWatching` (success/error projection of the
`FileOperationResult`). -/
structure StopWatchResult where
  success : Bool
  error : Option String
deriving DecidableEq, Repr

/-- `AdvancedOperations.stopWatching`: close and delete the registered
watcher when one exists at the exact path string, otherwise fail with
`'Watcher not found'`. -/
def stopWatching (reg : WatcherRegistry) (p : String) :
    StopWatchResult × WatcherRegistry :=
  match registryLookup reg p with
  | some _ => (⟨true, none⟩, registryErase reg p)
  | none => (⟨false, some "Watcher not found"⟩, reg)

/-- The registry transition of a successful `AdvancedOperations.watchFile`
call: if a watcher is already registered at the exact path string, stop it
first (replace semantics), then register the freshly created watcher. -/
def watchFile (reg : WatcherRegistry) (p : String) (newId : Nat) : WatcherRegistry :=
  let reg1 := if (registryLookup reg p).isSome then (stopWatching reg p).2 else reg
  registrySet reg1 p newId

/-- `FileWatchEvent.type`. -/
inductive WatchEventType where
  | add
  | change
  | unlink
  | addDir
  | unlinkDir
deriving DecidableEq, Repr

/-- A `FileWatchEvent` as pushed by the watcher callbacks (the optional
`stats` payload is irrelevant to the buffered-events claims and is elided
to its presence). -/
structure FileWatchEvent where
  etype : WatchEventType
  path : String
deriving DecidableEq, Repr

/-- A watcher callback body: `events.push({...})` on the per-call `events`
array. -/
def pushEvent (buf : List FileWatchEvent) (e : FileWatchEvent) : List FileWatchEvent :=
  buf ++ [e]

/-- The `events` array after the watcher callbacks fired for `es`, in
order, starting from the empty array created in `watchFile`. -/
def accumulateEvents (es : List FileWatchEvent) : List FileWatchEvent :=
  es.foldl pushEvent []

/-- `events.slice(-10)`: the portion of the buffer exposed in the
`watchFile` response data. -/
def watchResponseEvents (buf : List FileWatchEvent) : List FileWatchEvent :=
  buf.drop (buf.length - 10)

/-! ### File operations (src file-operations: `FileOperations`) -/

/-- The encodings accepted by `ReadFileSchema` / `WriteFileSchema`. -/
inductive Encoding where
  | utf8
  | utf16le
  | latin1
  | base64
  | hex
  | ascii
  | binary
deriving DecidableEq, Repr

/-- A filesystem node: a regular file with raw byte content, or a
directory. -/
inductive FsNode where
  | file (bytes : List Nat)
  | dir
deriving DecidableEq, Repr

/-- The filesystem as a flat map from path strings to nodes. -/
abbrev FileSystem := List (String × FsNode)

/-- Path lookup (the `fs.access` / `fs.stat` probes). -/
def fsLookup (fs : FileSystem) (p : String) : Option FsNode :=
  (fs.find? (fun e => e.1 = p)).map (fun e => e.2)

/-- Remove the node at `p`. -/
def fsErase (fs : FileSystem) (p : String) : FileSystem :=
  fs.filter (fun e => e.1 ≠ p)

/-- Store a node at `p` (overwrite). -/
def fsSet (fs : FileSystem) (p : String) (n : FsNode) : FileSystem :=
  (p, n) :: fsErase fs p

/-- An encoding codec, the external collaborator behind Node's
`Buffer.byteLength` / `buffer.toString` / `fs.readFile(path, encoding)` /
`fs.writeFile(path, content, {encoding})`: `enc` turns a JS string into
bytes and `dec` turns bytes back into a JS string. -/
structure Codec where
  enc : Encoding → List Char → List Nat
  dec : Encoding → List Nat → List Char

/-- The `content` field returned by `readFile`: a decoded JS string, or a
raw `Buffer`. -/
inductive ReadContent where
  | text (s : List Char)
  | buf (b : List Nat)
deriving DecidableEq, Repr

/-- Success/content/error projection of `readFile`'s
`FileOperationResult`. -/
structure ReadResult where
  success : Bool
  content : Option ReadContent
  error : Option String
deriving DecidableEq, Repr

/-- `start = offset || 0` (JS `0` is falsy, so a zero offset also yields
`0`). -/
def sliceStart (offset : Option Nat) : Nat :=
  offset.getD 0

/-- `end = limit ? start + limit : buffer.length` (JS falsiness: a zero
`limit` behaves like an absent one; the schema already requires
`limit >= 1`). -/
def sliceStop (len : Nat) (offset limit : Option Nat) : Nat :=
  match limit with
  | some l => if l = 0 then len else sliceStart offset + l
  | none => len

/-- `buffer.slice(start, end)` (clamped to the buffer length, empty when
`start >= end`). -/
def bufSlice (bytes : List Nat) (offset limit : Option Nat) : List Nat :=
  (bytes.take (sliceStop bytes.length offset limit)).drop (sliceStart offset)

/-- `FileOperations.readFile`: after the `fs.access` probe, a ranged read
(`offset` or `limit` given) reads the whole file into a `Buffer`, slices
`[start, end)` with `start = offset || 0` and
`end = limit ? start + limit : buffer.length`, and decodes the slice only
when the encoding is `utf8` (otherwise the raw slice is returned);
an unranged read decodes the whole file with the requested encoding. -/
def readFile (cd : Codec) (fs : FileSystem) (p : String) (encoding : Encoding)
    (offset limit : Option Nat) : ReadResult :=
  match fsLookup fs p with
  | none => ⟨false, none, some "no such file or directory"⟩
  | some FsNode.dir => ⟨false, none, some "illegal operation on a directory"⟩
  | some (FsNode.file bytes) =>
    if offset.isSome || limit.isSome then
      if encoding = Encoding.utf8 then
        ⟨true, some (ReadContent.text (cd.dec Encoding.utf8 (bufSlice bytes offset limit))), none⟩
      else
        ⟨true, some (ReadContent.buf (bufSlice bytes offset limit)), none⟩
    else
      ⟨true, some (ReadContent.text (cd.dec encoding bytes)), none⟩

/-- Success/error projection of `writeFile`'s `FileOperationResult`. -/
structure WriteResult where
  success : Bool
  error : Option String
deriving DecidableEq, Repr

/-- `FileOperations.writeFile`: encode the content with the requested
encoding and write it at `path` (append concatenates to existing file
content, otherwise truncate); writing over a directory fails with the
underlying `EISDIR` error. -/
def writeFile (cd : Codec) (fs : FileSystem) (p : String) (content : List Char)
    (encoding : Encoding) (append : Bool) : WriteResult × FileSystem :=
  match fsLookup fs p with
  | some FsNode.dir => (⟨false, some "illegal operation on a directory"⟩, fs)
  | other =>
    let bytes := cd.enc encoding content
    let newBytes :=
      if append then
        (match other with
         | some (FsNode.file old) => old ++ bytes
         | _ => bytes)
      else bytes
    (⟨true, none⟩, fsSet fs p (FsNode.file newBytes))

/-- Success/message/error projection of `deleteFile`'s
`FileOperationResult`. -/
structure DeleteResult where
  success : Bool
  message : String
  error : Option String
deriving DecidableEq, Repr

/-- Paths strictly inside the directory `p` (used by
`fs.rmdir(path, { recursive: true })`). -/
def isUnder (dirPath entry : String) : Bool :=
  (dirPath ++ "/").isPrefixOf entry

/-- Remove `p` and everything beneath it. -/
def fsEraseTree (fs : FileSystem) (p : String) : FileSystem :=
  fs.filter (fun e => e.1 ≠ p ∧ isUnder p e.1 = false)

/-- `FileOperations.deleteFile`: a missing path fails with
`'Path not found'` unless `force` (in which case it is reported as
success); a directory without `recursive` fails with
`'Directory requires recursive deletion'` and nothing is deleted; otherwise
the file (or, recursively, the directory) is removed. -/
def deleteFile (fs : FileSystem) (p : String) (recursive force : Bool) :
    DeleteResult × FileSystem :=
  match fsLookup fs p with
  | none =>
    if force then
      (⟨true, "Path does not exist (ignored due to force flag)", none⟩, fs)
    else
      (⟨false, "Path does not exist", some "Path not found"⟩, fs)
  | some FsNode.dir =>
    if recursive then
      (⟨true, "Directory deleted successfully", none⟩, fsEraseTree fs p)
    else
      (⟨false, "Cannot delete directory without recursive flag",
        some "Directory requires recursive deletion"⟩, fs)
  | some (FsNode.file _) =>
    (⟨true, "File deleted successfully", none⟩, fsErase fs p)

/-! ### Watch-status resource (src/server.ts, `file://watch/status/{path}`) -/

/-- The computed part of the watch-status resource payload: the handler
hard-codes `isWatching: false` and `lastEvents: []`. -/
structure WatchStatusValue where
  path : String
  isWatching : Bool
  lastEvents : List FileWatchEvent
deriving DecidableEq, Repr

/-- `getCacheKey('watch_status', { path })`. -/
def watchStatusKey (p : String) : String :=
  "watch_status:" ++ p

/-- The `file://watch/status/{path}` read handler.  The watcher registry is
in scope for the server but the handler never consults it: on a cache miss
the payload is the constant `{ path, isWatching: false, lastEvents: [] }`,
stored under the short watch TTL. -/
def watchStatusFetch (watchers : WatcherRegistry)
    (cache : Cache (ResourceData WatchStatusValue)) (now : Nat) (p : String) :
    ResourceData WatchStatusValue × Cache (ResourceData WatchStatusValue) :=
  fetchResource cache now (watchStatusKey p) ⟨p, false, []⟩ FILE_WATCH_CACHE_TTL

/-! ### searchInFiles (src advanced-operations:
`AdvancedOperations.searchInFiles`) -/

/-- One entry of the per-file `matches` array. -/
structure SearchMatch where
  line : Nat
  column : Nat
  text : List Char
  context : List Char
deriving DecidableEq, Repr

/-- The context block of a match on 0-based line `i`:
`lines.slice(max(0, i - contextLines), min(lines.length - 1, i + contextLines) + 1).join('\n')`
(truncated subtraction is the `max(0, ...)` clamp). -/
def contextBlock (lines : List Line) (contextLines i : Nat) : List Char :=
  let startLine := i - contextLines
  let stopLine := min (lines.length - 1) (i + contextLines)
  List.intercalate ['\n'] ((lines.take (stopLine + 1)).drop startLine)

/-- The regex-match oracle: for a line, the list of
(`match.index`, `match[0]`) pairs produced by the `regex.exec` loop, in the
order the loop produces them. -/
abbrev ExecAll := Line → List (Nat × List Char)

/-- Matches contributed by the 0-based line `i` (the
`if (!line) continue` guard skips empty lines; each regex match becomes
`{ line: i + 1, column: match.index + 1, text: match[0], context }`). -/
def lineMatches (execAll : ExecAll) (lines : List Line) (contextLines i : Nat)
    (line : Line) : List SearchMatch :=
  if line = [] then []
  else (execAll line).map (fun m => ⟨i + 1, m.1 + 1, m.2, contextBlock lines contextLines i⟩)

/-- The scan loop from 0-based line `i` over the remaining lines. -/
def searchFrom (execAll : ExecAll) (lines : List Line) (contextLines : Nat) :
    Nat → List Line → List SearchMatch
  | _, [] => []
  | i, l :: rest =>
    lineMatches execAll lines contextLines i l ++
      searchFrom execAll lines contextLines (i + 1) rest

/-- The `matches` array built by `searchInFiles` for one file with the
given lines. -/
def searchMatches (execAll : ExecAll) (lines : List Line) (contextLines : Nat) :
    List SearchMatch :=
  searchFrom execAll lines contextLines 0 lines

/-! ## Theorems -/

/-! ### Association-list helpers -/

theorem find?_key_cons_self {β : Type} (l : List (String × β)) (k : String) (b : β) :
    ((k, b) :: l).find? (fun e => e.1 = k) = some (k, b) := by
  simp

theorem find?_key_erase {β : Type} (l : List (String × β)) (k : String) :
    (l.filter (fun e => e.1 ≠ k)).find? (fun e => e.1 = k) = none := by
  rw [List.find?_eq_none]
  intro x hx
  have hmem := (List.mem_filter.1 hx).2
  simp only [decide_not, Bool.not_eq_true', decide_eq_false_iff_not] at hmem
  simpa using hmem

theorem countP_key_erase {β : Type} (l : List (String × β)) (k : String) :
    (l.filter (fun e => e.1 ≠ k)).countP (fun e => e.1 = k) = 0 := by
  rw [List.countP_eq_zero]
  intro x hx
  have hmem := (List.mem_filter.1 hx).2
  simp only [decide_not, Bool.not_eq_true', decide_eq_false_iff_not] at hmem
  simpa using hmem

/-! ### C4: watch replace law -/

theorem registryLookup_set (reg : WatcherRegistry) (p : String) (id : Nat) :
    registryLookup (registrySet reg p id) p = some id := by
  simp [registryLookup, registrySet, registryErase, find?_key_cons_self]

theorem registryLookup_erase (reg : WatcherRegistry) (p : String) :
    registryLookup (registryErase reg p) p = none := by
  simp [registryLookup, registryErase, find?_key_erase]

theorem registrationCount_set (reg : WatcherRegistry) (p : String) (id : Nat) :
    registrationCount (registrySet reg p id) p = 1 := by
  simp [registrationCount, registrySet, registryErase, List.countP_cons, countP_key_erase]

/-- C4: calling `watch(p)` twice leaves exactly one active registration for
`p` (the second call's watcher), a first `stopWatch(p)` succeeds and
removes it, and a second `stopWatch(p)` fails with the not-found error
because no registration exists at that exact path string. -/
theorem watch_twice_stop_twice (reg : WatcherRegistry) (p : String) (id1 id2 : Nat) :
    registrationCount (watchFile (watchFile reg p id1) p id2) p = 1 ∧
    registryLookup (watchFile (watchFile reg p id1) p id2) p = some id2 ∧
    (stopWatching (watchFile (watchFile reg p id1) p id2) p).1 = ⟨true, none⟩ ∧
    registrationCount ((stopWatching (watchFile (watchFile reg p id1) p id2) p).2) p = 0 ∧
    (stopWatching ((stopWatching (watchFile (watchFile reg p id1) p id2) p).2) p).1 =
      ⟨false, some "Watcher not found"⟩ := by
  have hset : registryLookup (watchFile (watchFile reg p id1) p id2) p = some id2 := by
    simp [watchFile, registryLookup_set]
  have hstop : stopWatching (watchFile (watchFile reg p id1) p id2) p =
      (⟨true, none⟩, registryErase (watchFile (watchFile reg p id1) p id2) p) := by
    rw [stopWatching, hset]
  refine ⟨?_, hset, ?_, ?_, ?_⟩
  · simp [watchFile, registrationCount_set]
  · rw [hstop]
  · rw [hstop]
    simp [registrationCount, registryErase, countP_key_erase]
  · rw [hstop]
    simp [stopWatching, registryLookup_erase]

/-! ### C3: watch event accumulation -/

/-- C3 counterexample: the per-call `events` array is not a capacity-10
ring.  After 11 events have fired, the buffer holds all 11 events and the
oldest one is still at the front, so no "drop the oldest once 10 are held"
ever happens. -/
theorem watch_events_ring_counterexample :
    (accumulateEvents ((List.range 11).map
        (fun n => ⟨WatchEventType.add, Nat.repr n⟩))).length = 11 ∧
    (accumulateEvents ((List.range 11).map
        (fun n => ⟨WatchEventType.add, Nat.repr n⟩))).head? =
      some ⟨WatchEventType.add, "0"⟩ := by
  constructor
  · rfl
  · rfl

theorem foldl_pushEvent (es : List FileWatchEvent) :
    ∀ acc : List FileWatchEvent, es.foldl pushEvent acc = acc ++ es := by
  induction es with
  | nil => intro acc; simp
  | cons e rest ih =>
    intro acc
    simp only [List.foldl_cons, ih, pushEvent]
    simp

/-- C3 amended: the watcher callbacks accumulate events into an unbounded
array (every pushed event is retained, in order — nothing is ever
dropped), and only the response of the `watch_file` call itself exposes the
last up-to-10 events of that array; the registry keeps no event buffer. -/
theorem watch_events_accumulation (es : List FileWatchEvent) :
    accumulateEvents es = es ∧
    watchResponseEvents (accumulateEvents es) = es.drop (es.length - 10) := by
  have h : accumulateEvents es = es := by
    simpa using foldl_pushEvent es []
  exact ⟨h, by rw [watchResponseEvents, h]⟩

/-! ### C5: delete guard -/

/-- C5: deleting an existing directory with `recursive=false` always fails
with the directory error and leaves the filesystem untouched (for any
`force`); deleting a missing path fails with `'Path not found'` when
`force=false` and is reported as success (still changing nothing) when
`force=true`. -/
theorem delete_directory_guard (fs : FileSystem) (p : String) (force recur : Bool) :
    (fsLookup fs p = some FsNode.dir →
      deleteFile fs p false force =
        (⟨false, "Cannot delete directory without recursive flag",
          some "Directory requires recursive deletion"⟩, fs)) ∧
    (fsLookup fs p = none →
      deleteFile fs p recur false =
        (⟨false, "Path does not exist", some "Path not found"⟩, fs)) ∧
    (fsLookup fs p = none →
      deleteFile fs p recur true =
        (⟨true, "Path does not exist (ignored due to force flag)", none⟩, fs)) := by
  refine ⟨fun h => ?_, fun h => ?_, fun h => ?_⟩
  · rw [deleteFile, h]
    rfl
  · rw [deleteFile, h]
    rfl
  · rw [deleteFile, h]
    rfl

/-- C5 witness: a one-directory filesystem exercises all three branches. -/
theorem delete_directory_guard_witness :
    deleteFile [("d", FsNode.dir)] "d" false true =
      (⟨false, "Cannot delete directory without recursive flag",
        some "Directory requires recursive deletion"⟩, [("d", FsNode.dir)]) ∧
    deleteFile [("d", FsNode.dir)] "missing" false false =
      (⟨false, "Path does not exist", some "Path not found"⟩, [("d", FsNode.dir)]) ∧
    deleteFile [("d", FsNode.dir)] "missing" false true =
      (⟨true, "Path does not exist (ignored due to force flag)", none⟩,
        [("d", FsNode.dir)]) :=
  ⟨(delete_directory_guard [("d", FsNode.dir)] "d" true false).1 (by decide),
   (delete_directory_guard [("d", FsNode.dir)] "missing" false false).2.1 (by decide),
   (delete_directory_guard [("d", FsNode.dir)] "missing" true false).2.2 (by decide)⟩

/-! ### C6: write/read round trip -/

theorem fsLookup_set (fs : FileSystem) (p : String) (n : FsNode) :
    fsLookup (fsSet fs p n) p = some n := by
  simp [fsLookup, fsSet, fsErase, find?_key_cons_self]

/-- C6: when the external UTF-8 codec is inverse on strings, a successful
default-encoding `write(path, C)` followed by a default-encoding
`read(path)` (no offset/limit) returns content equal to `C`. -/
theorem write_read_roundtrip (cd : Codec) (fs : FileSystem) (p : String) (C : List Char)
    (hcodec : ∀ s, cd.dec Encoding.utf8 (cd.enc Encoding.utf8 s) = s)
    (hnotdir : fsLookup fs p ≠ some FsNode.dir) :
    (writeFile cd fs p C Encoding.utf8 false).1 = ⟨true, none⟩ ∧
    readFile cd (writeFile cd fs p C Encoding.utf8 false).2 p Encoding.utf8 none none =
      ⟨true, some (ReadContent.text C), none⟩ := by
  have hw : writeFile cd fs p C Encoding.utf8 false =
      (⟨true, none⟩, fsSet fs p (FsNode.file (cd.enc Encoding.utf8 C))) := by
    rcases hfs : fsLookup fs p with _ | node
    · rw [writeFile, hfs]
      rfl
    · cases node with
      | file b =>
        rw [writeFile, hfs]
        rfl
      | dir => exact absurd hfs hnotdir
  refine ⟨by rw [hw], ?_⟩
  rw [hw, readFile, fsLookup_set]
  simp [hcodec]

/-- C6 witness at a concrete inverse codec, empty filesystem, path `"f"`
and content `"hi"`. -/
theorem write_read_roundtrip_witness :
    readFile ⟨fun _ s => s.map Char.toNat, fun _ b => b.map Char.ofNat⟩
      (writeFile ⟨fun _ s => s.map Char.toNat, fun _ b => b.map Char.ofNat⟩
        [] "f" ['h', 'i'] Encoding.utf8 false).2 "f" Encoding.utf8 none none =
      ⟨true, some (ReadContent.text ['h', 'i']), none⟩ :=
  (write_read_roundtrip ⟨fun _ s => s.map Char.toNat, fun _ b => b.map Char.ofNat⟩
    [] "f" ['h', 'i']
    (fun s => by simp [List.map_map, Function.comp_def, Char.ofNat_toNat])
    (by simp [fsLookup])).2

/-! ### C10: ranged reads bypass non-utf8 encodings -/

/-- C10: a ranged read (offset or limit given) with a non-`utf8` encoding
returns the raw byte slice as an undecoded `Buffer` (the requested
encoding is never applied), and only with the `utf8` encoding is the
sliced range decoded to a string. -/
theorem ranged_read_encoding (cd : Codec) (fs : FileSystem) (p : String)
    (enc : Encoding) (bytes : List Nat) (offset limit : Option Nat)
    (hfile : fsLookup fs p = some (FsNode.file bytes))
    (hranged : offset.isSome = true ∨ limit.isSome = true) :
    (enc ≠ Encoding.utf8 →
      readFile cd fs p enc offset limit =
        ⟨true, some (ReadContent.buf (bufSlice bytes offset limit)), none⟩) ∧
    readFile cd fs p Encoding.utf8 offset limit =
      ⟨true, some (ReadContent.text (cd.dec Encoding.utf8 (bufSlice bytes offset limit))), none⟩ := by
  have hcond : (offset.isSome || limit.isSome) = true := by
    rcases hranged with h | h <;> simp [h]
  constructor
  · intro henc
    rw [readFile, hfile]
    simp only [hcond, if_true]
    rw [if_neg henc]
  · rw [readFile, hfile]
    simp only [hcond, if_true, if_pos rfl]

/-- C10 witness: reading bytes `[10, 11, 12, 13]` at offset 1, limit 2
under the `base64` encoding yields the raw slice `[11, 12]`. -/
theorem ranged_read_encoding_witness :
    readFile ⟨fun _ s => s.map Char.toNat, fun _ b => b.map Char.ofNat⟩
      [("f", FsNode.file [10, 11, 12, 13])] "f" Encoding.base64 (some 1) (some 2) =
      ⟨true, some (ReadContent.buf [11, 12]), none⟩ := by
  have h := (ranged_read_encoding
    ⟨fun _ s => s.map Char.toNat, fun _ b => b.map Char.ofNat⟩
    [("f", FsNode.file [10, 11, 12, 13])] "f" Encoding.base64 [10, 11, 12, 13]
    (some 1) (some 2) (by decide) (Or.inl (by decide))).1 (by decide)
  rw [h]
  rfl

/-! ### C2: resource cache TTL law -/

theorem cacheLookup_cons_self (c : Cache α) (key : String) (e : CacheEntry α) :
    cacheLookup ((key, e) :: c) key = some e := by
  simp [cacheLookup, find?_key_cons_self]

theorem cacheLookup_erase (c : Cache α) (key : String) :
    cacheLookup (cacheErase c key) key = none := by
  simp [cacheLookup, cacheErase, find?_key_erase]

theorem cacheOverwriteData_cons_self (c : Cache (ResourceData α)) (key : String)
    (e : CacheEntry (ResourceData α)) (d : ResourceData α) :
    cacheOverwriteData ((key, e) :: c) key d =
      (key, { e with data := d }) :: cacheOverwriteData c key d := by
  simp [cacheOverwriteData]

theorem getCachedData_lookup_some {cache : Cache α} {key : String}
    {e : CacheEntry α} (now : Nat) (h : cacheLookup cache key = some e) :
    getCachedData cache now key =
      if now - e.timestamp > e.ttl then (none, cacheErase cache key)
      else (some e.data, cache) := by
  rw [getCachedData, h]

/-- C2: starting from a cache that misses `key` at time `t0`, the first
fetch returns the computed payload with `cached = false` and timestamp
`t0`; a second fetch at `t1` within the TTL window returns the byte-
identical payload except `cached`, which is now `true`; once the TTL has
elapsed (`t2 - t0 > ttl`), the lookup is absent and the entry evicted, and
the next fetch recomputes, returning and storing a fresh payload with the
updated timestamp `t2` and `cached = false`. -/
theorem cache_ttl_law {α : Type} (cache0 : Cache (ResourceData α)) (key : String)
    (v : α) (ttl t0 t1 t2 : Nat)
    (h0 : (getCachedData cache0 t0 key).1 = none)
    (h1 : t1 - t0 ≤ ttl) (h2 : t2 - t0 > ttl) :
    (fetchResource cache0 t0 key v ttl).1 = ⟨v, false, t0⟩ ∧
    (fetchResource (fetchResource cache0 t0 key v ttl).2 t1 key v ttl).1 =
      { (fetchResource cache0 t0 key v ttl).1 with cached := true } ∧
    (getCachedData (fetchResource (fetchResource cache0 t0 key v ttl).2 t1 key v ttl).2
        t2 key).1 = none ∧
    cacheLookup (getCachedData
        (fetchResource (fetchResource cache0 t0 key v ttl).2 t1 key v ttl).2 t2 key).2
      key = none ∧
    (fetchResource (fetchResource (fetchResource cache0 t0 key v ttl).2 t1 key v ttl).2
        t2 key v ttl).1 = ⟨v, false, t2⟩ ∧
    cacheLookup (fetchResource
        (fetchResource (fetchResource cache0 t0 key v ttl).2 t1 key v ttl).2
        t2 key v ttl).2 key = some ⟨⟨v, false, t2⟩, t2, ttl⟩ := by
  have e1 : fetchResource cache0 t0 key v ttl =
      (⟨v, false, t0⟩,
        (key, ⟨⟨v, false, t0⟩, t0, ttl⟩) :: cacheErase (getCachedData cache0 t0 key).2 key) := by
    rw [fetchResource, h0]
    rfl
  have hlook1 : cacheLookup (fetchResource cache0 t0 key v ttl).2 key =
      some ⟨⟨v, false, t0⟩, t0, ttl⟩ := by
    rw [e1]
    exact cacheLookup_cons_self _ _ _
  have hget1 : getCachedData (fetchResource cache0 t0 key v ttl).2 t1 key =
      (some ⟨v, false, t0⟩, (fetchResource cache0 t0 key v ttl).2) := by
    rw [getCachedData_lookup_some t1 hlook1]
    exact if_neg (Nat.not_lt.2 h1)
  have e2 : fetchResource (fetchResource cache0 t0 key v ttl).2 t1 key v ttl =
      (⟨v, true, t0⟩,
        cacheOverwriteData (fetchResource cache0 t0 key v ttl).2 key ⟨v, true, t0⟩) := by
    rw [fetchResource, hget1]
  have hlook2 : cacheLookup
      (fetchResource (fetchResource cache0 t0 key v ttl).2 t1 key v ttl).2 key =
      some ⟨⟨v, true, t0⟩, t0, ttl⟩ := by
    rw [e2, e1]
    rw [cacheOverwriteData_cons_self]
    exact cacheLookup_cons_self _ _ _
  have hget2 : getCachedData
      (fetchResource (fetchResource cache0 t0 key v ttl).2 t1 key v ttl).2 t2 key =
      (none, cacheErase
        (fetchResource (fetchResource cache0 t0 key v ttl).2 t1 key v ttl).2 key) := by
    rw [getCachedData_lookup_some t2 hlook2]
    exact if_pos h2
  have e3 : fetchResource
      (fetchResource (fetchResource cache0 t0 key v ttl).2 t1 key v ttl).2 t2 key v ttl =
      (⟨v, false, t2⟩,
        (key, ⟨⟨v, false, t2⟩, t2, ttl⟩) :: cacheErase (getCachedData
          (fetchResource (fetchResource cache0 t0 key v ttl).2 t1 key v ttl).2 t2 key).2
          key) := by
    rw [fetchResource]
    rw [show (getCachedData (fetchResource (fetchResource cache0 t0 key v ttl).2
        t1 key v ttl).2 t2 key).1 = none from by rw [hget2]]
    rfl
  refine ⟨by rw [e1], ?_, by rw [hget2], ?_, by rw [e3], ?_⟩
  · rw [e2, e1]
  · rw [hget2]
    exact cacheLookup_erase _ _
  · rw [e3]
    exact cacheLookup_cons_self _ _ _

/-- C2 witness: empty cache, default TTL, fetches at times 0, 100 and
300001. -/
theorem cache_ttl_law_witness :
    (fetchResource ([] : Cache (ResourceData Nat)) 0 "metadata:x" 7 DEFAULT_CACHE_TTL).1 =
      ⟨7, false, 0⟩ ∧
    (fetchResource (fetchResource ([] : Cache (ResourceData Nat)) 0 "metadata:x" 7
        DEFAULT_CACHE_TTL).2 100 "metadata:x" 7 DEFAULT_CACHE_TTL).1 =
      { (fetchResource ([] : Cache (ResourceData Nat)) 0 "metadata:x" 7
          DEFAULT_CACHE_TTL).1 with cached := true } ∧
    (fetchResource (fetchResource (fetchResource ([] : Cache (ResourceData Nat)) 0
        "metadata:x" 7 DEFAULT_CACHE_TTL).2 100 "metadata:x" 7 DEFAULT_CACHE_TTL).2
        300001 "metadata:x" 7 DEFAULT_CACHE_TTL).1 = ⟨7, false, 300001⟩ := by
  have h := cache_ttl_law ([] : Cache (ResourceData Nat)) "metadata:x" 7
    DEFAULT_CACHE_TTL 0 100 300001 (by rfl) (by decide) (by decide)
  exact ⟨h.1, h.2.1, h.2.2.2.2.1⟩

/-! ### C8: watch-status resource ignores the registry -/

/-- C8: on a cache miss, the `file://watch/status/{path}` resource reports
`isWatching = false` and an empty `lastEvents` list no matter what the
watcher registry contains, and the whole fetch result is independent of
the registry — the handler never consults it. -/
theorem watch_status_ignores_registry (w : WatcherRegistry)
    (cache : Cache (ResourceData WatchStatusValue)) (now : Nat) (p : String)
    (hmiss : (getCachedData cache now (watchStatusKey p)).1 = none) :
    (watchStatusFetch w cache now p).1.value.isWatching = false ∧
    (watchStatusFetch w cache now p).1.value.lastEvents = [] ∧
    (watchStatusFetch w cache now p).1.cached = false ∧
    ∀ w', watchStatusFetch w cache now p = watchStatusFetch w' cache now p := by
  have h : watchStatusFetch w cache now p =
      (⟨⟨p, false, []⟩, false, now⟩,
        setCachedData (getCachedData cache now (watchStatusKey p)).2 now
          (watchStatusKey p) ⟨⟨p, false, []⟩, false, now⟩ FILE_WATCH_CACHE_TTL) := by
    rw [watchStatusFetch, fetchResource, hmiss]
  exact ⟨by rw [h], by rw [h], by rw [h], fun w' => rfl⟩

/-- C8 witness: an empty cache misses even while a registration for the
path is active in the registry. -/
theorem watch_status_ignores_registry_witness :
    (watchStatusFetch [("x", 5)] [] 0 "x").1.value.isWatching = false ∧
    (watchStatusFetch [("x", 5)] [] 0 "x").1.value.lastEvents = [] := by
  have h := watch_status_ignores_registry [("x", 5)] [] 0 "x" (by rfl)
  exact ⟨h.1, h.2.1⟩

/-! ### C1: positional diff -/

theorem splitNl_ne_nil (c : List Char) : splitNl c ≠ [] := by
  induction c with
  | nil => simp [splitNl]
  | cons a rest ih =>
    simp only [splitNl]
    split
    · simp
    · split
      · simp
      · simp

theorem splitNl_append_newline (x c : List Char) (hx : '\n' ∉ x) :
    splitNl (x ++ '\n' :: c) = x :: splitNl c := by
  induction x with
  | nil => rfl
  | cons a y ih =>
    have ha : a ≠ '\n' := fun h => hx (h ▸ List.mem_cons_self a y)
    have hy : '\n' ∉ y := fun h => hx (List.mem_cons_of_mem _ h)
    rw [List.cons_append, splitNl, ih hy]
    simp only [if_neg ha]

theorem computeDifferences_self (l : List Line) : computeDifferences l l = [] := by
  rw [computeDifferences, List.filterMap_eq_nil_iff]
  intro i _
  simp [diffAt]

theorem diffAt_isSome_iff (l1 l2 : List Line) (i : Nat) :
    (diffAt l1 l2 i).isSome = true ↔ l1.getD i [] ≠ l2.getD i [] := by
  simp only [diffAt]
  rcases eq_or_ne (l1.getD i []) (l2.getD i []) with h | h
  · rw [if_pos h]
    exact iff_of_false (by simp) (by simpa using h)
  · rw [if_neg h]
    simp only [ne_eq, h, not_false_eq_true, iff_true]
    rcases le_or_lt l1.length i with h1 | h1
    · rw [if_pos h1]
      rfl
    · rw [if_neg (Nat.not_le.2 h1)]
      rcases le_or_lt l2.length i with h2 | h2
      · rw [if_pos h2]
        rfl
      · rw [if_neg (Nat.not_le.2 h2)]
        rfl

theorem length_computeDifferences_insert (L : List Line) (x : Line)
    (hne : L ≠ []) (hchain : L.Chain' (· ≠ ·)) (hhead : L.head? ≠ some x)
    (hlast : L.getLast? ≠ some ([] : Line)) :
    (computeDifferences L (x :: L)).length = L.length + 1 := by
  have hmax : max L.length (x :: L).length = L.length + 1 := by
    simp [Nat.max_eq_right (Nat.le_succ _)]
  rw [computeDifferences, hmax, List.length_filterMap_eq_countP]
  have hall : ∀ i ∈ List.range (L.length + 1),
      ((diffAt L (x :: L) i).isSome : Bool) = true := by
    intro i hi
    have hi' : i < L.length + 1 := List.mem_range.1 hi
    rw [diffAt_isSome_iff]
    match i with
    | 0 =>
      cases L with
      | nil => exact absurd rfl hne
      | cons h t =>
        simp only [List.head?_cons, ne_eq, Option.some.injEq] at hhead
        simpa using hhead
    | j + 1 =>
      rw [List.getD_cons_succ]
      rcases Nat.lt_or_ge (j + 1) L.length with hlt | hge
      · rw [List.getD_eq_getElem _ _ hlt, List.getD_eq_getElem _ _ (Nat.lt_of_succ_lt hlt)]
        have hchainj := List.chain'_iff_get.1 hchain j (by omega)
        simp only [List.get_eq_getElem] at hchainj
        exact hchainj.symm
      · have hj1 : j + 1 = L.length := Nat.le_antisymm (Nat.lt_succ_iff.1 hi') hge
        have hjlt : j < L.length := by omega
        rw [List.getD_eq_default _ _ (Nat.le_of_eq hj1.symm), List.getD_eq_getElem _ _ hjlt]
        have hgl : L.getLast? = some (L[j]) := by
          rw [List.getLast?_eq_getElem?]
          have hidx : L.length - 1 = j := by omega
          rw [hidx, List.getElem?_eq_getElem hjlt]
        intro hEq
        exact hlast (by rw [hgl, ← hEq])
  rw [List.countP_eq_length.2 hall, List.length_range]

/-- C1 counterexample: the diff pads a missing line with the empty string,
so an extra empty trailing line is never reported — `"a"` versus `"a\n"`
compares as identical with 0 differences, where the claim predicts one
pure `added` difference — and inserting one line at the start of the
2-line file `"a\nb"` produces 3 differences, not the claimed 2 (the extra
line of file2 is reported besides every shifted line). -/
theorem compareFiles_positional_claim_counterexample :
    (compareFiles ['a'] ['a', '\n'] false false).totalDifferences = 0 ∧
    (compareFiles ['a'] ['a', '\n'] false false).identical = true ∧
    (compareFiles ['a', '\n', 'b'] ['x', '\n', 'a', '\n', 'b'] false false).totalDifferences
      = 3 := by
  refine ⟨rfl, rfl, rfl⟩

/-- C1 (amended): the diff is positional with empty-string padding: after
normalization, line `i` of file1 (empty if past its end) is compared with
line `i` of file2 (empty if past its end); an extra trailing line is
reported as pure `added`/`removed` only when it is nonempty (an empty
extra line equals the padding and is skipped), and an in-range mismatch is
reported as `modified` with both contents.  Comparing a file to itself
yields `identical = true` and 0 differences.  Inserting one newline-free
line at the start of file2 relative to file1 yields exactly `N + 1`
differences, where `N` is the number of split lines of file1, provided
file1's adjacent lines pairwise differ, its first line differs from the
inserted line, and its last split line is nonempty. -/
theorem compareFiles_positional_law :
    (∀ (c : List Char) (iw ic : Bool),
      (compareFiles c c iw ic).identical = true ∧
      (compareFiles c c iw ic).totalDifferences = 0) ∧
    (∀ (l1 l2 : List Line) (i : Nat), l1.length ≤ i → i < l2.length →
      l2.getD i [] ≠ [] →
      (⟨i + 1, DiffType.added, l2.getD i []⟩ : Difference) ∈ computeDifferences l1 l2) ∧
    (∀ (l1 l2 : List Line) (i : Nat), l2.length ≤ i → i < l1.length →
      l1.getD i [] ≠ [] →
      (⟨i + 1, DiffType.removed, l1.getD i []⟩ : Difference) ∈ computeDifferences l1 l2) ∧
    (∀ (l1 l2 : List Line) (i : Nat), i < l1.length → i < l2.length →
      l1.getD i [] ≠ l2.getD i [] →
      (⟨i + 1, DiffType.modified,
        '-' :: ' ' :: l1.getD i [] ++ '\n' :: '+' :: ' ' :: l2.getD i []⟩ : Difference)
        ∈ computeDifferences l1 l2) ∧
    (∀ (c x : List Char), '\n' ∉ x → (splitNl c).Chain' (· ≠ ·) →
      (splitNl c).head? ≠ some x → (splitNl c).getLast? ≠ some ([] : Line) →
      (compareFiles c (x ++ '\n' :: c) false false).totalDifferences =
        (splitNl c).length + 1) := by
  refine ⟨?_, ?_, ?_, ?_, ?_⟩
  · intro c iw ic
    constructor
    · simp [compareFiles, computeDifferences_self]
    · simp [compareFiles, computeDifferences_self]
  · intro l1 l2 i h1 h2 h3
    rw [computeDifferences]
    refine List.mem_filterMap.2 ⟨i,
      List.mem_range.2 (lt_of_lt_of_le h2 (le_max_right _ _)), ?_⟩
    simp only [diffAt, List.getD_eq_default _ _ h1]
    rw [if_neg (fun h => h3 h.symm), if_pos h1]
  · intro l1 l2 i h1 h2 h3
    rw [computeDifferences]
    refine List.mem_filterMap.2 ⟨i,
      List.mem_range.2 (lt_of_lt_of_le h2 (le_max_left _ _)), ?_⟩
    simp only [diffAt, List.getD_eq_default _ _ h1]
    rw [if_neg h3, if_neg (Nat.not_le.2 h2), if_pos h1]
  · intro l1 l2 i h1 h2 h3
    rw [computeDifferences]
    refine List.mem_filterMap.2 ⟨i,
      List.mem_range.2 (lt_of_lt_of_le h1 (le_max_left _ _)), ?_⟩
    simp only [diffAt]
    rw [if_neg h3, if_neg (Nat.not_le.2 h1), if_neg (Nat.not_le.2 h2)]
  · intro c x hx hchain hhead hlast
    have hsplit : splitNl (x ++ '\n' :: c) = x :: splitNl c :=
      splitNl_append_newline x c hx
    have hproc : ∀ s : List Char, processContent s false false = s := fun s => rfl
    simp only [compareFiles, hproc, hsplit]
    exact length_computeDifferences_insert (splitNl c) x (splitNl_ne_nil c)
      hchain hhead hlast

/-- C1 witness: inserting the line `"x"` at the start of the one-line file
`"a"` yields 2 = 1 + 1 differences. -/
theorem compareFiles_positional_law_witness :
    (compareFiles ['a'] (['x'] ++ '\n' :: ['a']) false false).totalDifferences =
      (splitNl ['a']).length + 1 :=
  compareFiles_positional_law.2.2.2.2 ['a'] ['x'] (by decide)
    (by exact List.chain'_singleton _) (by decide) (by decide)

/-! ### C9: ignoreWhitespace collapses to a single line -/

theorem newline_not_mem_collapseWSAux (b : Bool) (c : List Char) :
    '\n' ∉ collapseWSAux b c := by
  induction c generalizing b with
  | nil => simp [collapseWSAux]
  | cons a rest ih =>
    simp only [collapseWSAux]
    split
    · split
      · exact ih true
      · intro hmem
        rcases List.mem_cons.1 hmem with h | h
        · exact absurd h (by decide)
        · exact ih true h
    · rename_i hws
      intro hmem
      rcases List.mem_cons.1 hmem with h | h
      · rw [← h] at hws
        exact hws (by decide)
      · exact ih false h

theorem newline_not_mem_trimChars {l : List Char} (h : '\n' ∉ l) :
    '\n' ∉ trimChars l := by
  intro hmem
  rw [trimChars, List.mem_reverse] at hmem
  have h1 : '\n' ∈ (l.dropWhile isJsWhitespace).reverse :=
    (List.dropWhile_sublist _).subset hmem
  rw [List.mem_reverse] at h1
  exact h ((List.dropWhile_sublist _).subset h1)

theorem jsToLower_eq_newline {c : Char} (h : jsToLower c = '\n') : c = '\n' := by
  rw [jsToLower] at h
  by_cases hc : ('A' ≤ c && c ≤ 'Z') = true
  · exfalso
    rw [if_pos hc] at h
    simp only [Bool.and_eq_true, decide_eq_true_eq] at hc
    have hZ : c ≤ 'Z' := hc.2
    have hzn : c.toNat ≤ 90 :=
      BitVec.le_def.1 (UInt32.le_def.1 (Char.le_def.1 hZ))
    have hvalid : (Char.ofNat (c.toNat + 32)).toNat = c.toNat + 32 := by
      rw [Char.ofNat, dif_pos (Or.inl (by omega : c.toNat + 32 < 55296))]
      rfl
    have h10 : c.toNat + 32 = 10 := by
      rw [← hvalid, h]
      rfl
    omega
  · rw [if_neg hc] at h
    exact h

theorem newline_not_mem_processContent (c : List Char) (ic : Bool) :
    '\n' ∉ processContent c true ic := by
  have base : '\n' ∉ trimChars (collapseWSAux false c) :=
    newline_not_mem_trimChars (newline_not_mem_collapseWSAux false c)
  cases ic with
  | false => simpa [processContent] using base
  | true =>
    simp only [processContent, if_true]
    intro hmem
    obtain ⟨a, ha, hEq⟩ := List.mem_map.1 hmem
    exact base (jsToLower_eq_newline hEq ▸ ha)

theorem splitNl_no_newline (l : List Char) (h : '\n' ∉ l) : splitNl l = [l] := by
  induction l with
  | nil => rfl
  | cons a rest ih =>
    have ha : a ≠ '\n' := fun hEq => h (hEq ▸ List.mem_cons_self a rest)
    have hr : '\n' ∉ rest := fun hm => h (List.mem_cons_of_mem _ hm)
    rw [splitNl, ih hr]
    simp only [if_neg ha]

theorem computeDifferences_singleton (a b : Line) :
    computeDifferences [a] [b] =
      if a = b then []
      else [⟨1, DiffType.modified, '-' :: ' ' :: a ++ '\n' :: '+' :: ' ' :: b⟩] := by
  rcases eq_or_ne a b with h | h
  · subst h
    rw [if_pos rfl]
    exact computeDifferences_self [a]
  · rw [if_neg h]
    have hd : diffAt [a] [b] 0 =
        some ⟨1, DiffType.modified, '-' :: ' ' :: a ++ '\n' :: '+' :: ' ' :: b⟩ := by
      simp only [diffAt, List.getD_cons_zero]
      rw [if_neg h]
      rfl
    show (List.range 1).filterMap (diffAt [a] [b]) = _
    rw [show List.range 1 = [0] from rfl]
    simp [List.filterMap_cons, hd]

/-- C9: with `ignoreWhitespace = true` the normalization replaces every
whitespace run (newlines included) with a single space and trims, so each
normalized text contains no newline, each file splits into exactly one
line, and `totalDifferences` is at most 1: exactly 0 when the normalized
texts are equal, else exactly one `modified` difference at line 1. -/
theorem compareFiles_ignoreWhitespace_single_line (c1 c2 : List Char) (ic : Bool) :
    '\n' ∉ processContent c1 true ic ∧
    '\n' ∉ processContent c2 true ic ∧
    (compareFiles c1 c2 true ic).file1Lines = 1 ∧
    (compareFiles c1 c2 true ic).file2Lines = 1 ∧
    (compareFiles c1 c2 true ic).totalDifferences ≤ 1 ∧
    (processContent c1 true ic = processContent c2 true ic →
      (compareFiles c1 c2 true ic).totalDifferences = 0) ∧
    (processContent c1 true ic ≠ processContent c2 true ic →
      (compareFiles c1 c2 true ic).differences =
        [⟨1, DiffType.modified, '-' :: ' ' :: processContent c1 true ic ++
          '\n' :: '+' :: ' ' :: processContent c2 true ic⟩]) := by
  have hn1 := newline_not_mem_processContent c1 ic
  have hn2 := newline_not_mem_processContent c2 ic
  have hs1 := splitNl_no_newline _ hn1
  have hs2 := splitNl_no_newline _ hn2
  refine ⟨hn1, hn2, ?_, ?_, ?_, ?_, ?_⟩
  · simp [compareFiles, hs1]
  · simp [compareFiles, hs2]
  · simp only [compareFiles, hs1, hs2, computeDifferences_singleton]
    split
    · simp
    · simp
  · intro hEq
    simp only [compareFiles, hs1, hs2, computeDifferences_singleton, if_pos hEq]
    rfl
  · intro hNe
    simp only [compareFiles, hs1, hs2, computeDifferences_singleton, if_neg hNe]

/-- C9 witness at the concrete files `"a"` and `"b"`. -/
theorem compareFiles_ignoreWhitespace_single_line_witness :
    (compareFiles ['a'] ['b'] true false).differences =
      [⟨1, DiffType.modified, '-' :: ' ' :: processContent ['a'] true false ++
        '\n' :: '+' :: ' ' :: processContent ['b'] true false⟩] :=
  (compareFiles_ignoreWhitespace_single_line ['a'] ['b'] false).2.2.2.2.2.2
    (by decide)

/-! ### C7: searchInFiles matches -/

theorem line_eq_of_mem_lineMatches {e : ExecAll} {al : List Line} {ctx j : Nat}
    {l : Line} {m : SearchMatch} (h : m ∈ lineMatches e al ctx j l) :
    m.line = j + 1 := by
  rw [lineMatches] at h
  split at h
  · exact absurd h (List.not_mem_nil m)
  · obtain ⟨p, hp, rfl⟩ := List.mem_map.1 h
    rfl

theorem lt_line_of_mem_searchFrom {e : ExecAll} {al : List Line} {ctx : Nat} :
    ∀ {j : Nat} {rest : List Line} {m : SearchMatch},
      m ∈ searchFrom e al ctx j rest → j < m.line := by
  intro j rest
  induction rest generalizing j with
  | nil =>
    intro m h
    exact absurd h (List.not_mem_nil m)
  | cons l rest ih =>
    intro m h
    rw [searchFrom] at h
    rcases List.mem_append.1 h with h | h
    · rw [line_eq_of_mem_lineMatches h]
      omega
    · have := ih h
      omega

theorem mem_searchFrom_iff (e : ExecAll) (al : List Line) (ctx : Nat) :
    ∀ (j : Nat) (rest : List Line) (m : SearchMatch),
      m ∈ searchFrom e al ctx j rest ↔
        ∃ k l, rest[k]? = some l ∧ l ≠ [] ∧ ∃ p ∈ e l,
          m = ⟨j + k + 1, p.1 + 1, p.2, contextBlock al ctx (j + k)⟩ := by
  intro j rest
  induction rest generalizing j with
  | nil =>
    intro m
    simp [searchFrom]
  | cons l rest ih =>
    intro m
    rw [searchFrom, List.mem_append]
    constructor
    · rintro (h | h)
      · rw [lineMatches] at h
        split at h
        · exact absurd h (List.not_mem_nil m)
        · rename_i hl
          obtain ⟨p, hp, rfl⟩ := List.mem_map.1 h
          exact ⟨0, l, by simp, hl, p, hp, by simp⟩
      · obtain ⟨k, l', hk, hl', p, hp, hm⟩ := (ih (j + 1) m).1 h
        refine ⟨k + 1, l', by simpa using hk, hl', p, hp, ?_⟩
        rw [hm]
        have h1 : j + 1 + k = j + (k + 1) := by omega
        rw [h1]
    · rintro ⟨k, l', hk, hl', p, hp, rfl⟩
      match k with
      | 0 =>
        left
        have hl : l = l' := by simpa using hk
        subst hl
        rw [lineMatches, if_neg hl']
        exact List.mem_map.2 ⟨p, hp, by simp⟩
      | Nat.succ k =>
        right
        apply (ih (j + 1) _).2
        refine ⟨k, l', by simpa using hk, hl', p, hp, ?_⟩
        have h1 : j + (k + 1) = j + 1 + k := by omega
        rw [h1]

theorem pairwise_searchFrom (e : ExecAll) (al : List Line) (ctx : Nat)
    (hexec : ∀ l, List.Pairwise (· < ·) ((e l).map Prod.fst)) :
    ∀ (j : Nat) (rest : List Line),
      List.Pairwise (fun a b : SearchMatch =>
        a.line < b.line ∨ (a.line = b.line ∧ a.column < b.column))
        (searchFrom e al ctx j rest) := by
  intro j rest
  induction rest generalizing j with
  | nil => exact List.Pairwise.nil
  | cons l rest ih =>
    rw [searchFrom]
    apply List.pairwise_append.2
    refine ⟨?_, ih (j + 1), ?_⟩
    · rw [lineMatches]
      split
      · exact List.Pairwise.nil
      · rw [List.pairwise_map]
        have hp := List.pairwise_map.1 (hexec l)
        exact hp.imp (fun hab => Or.inr ⟨rfl, Nat.succ_lt_succ hab⟩)
    · intro a ha b hb
      have h1 : a.line = j + 1 := line_eq_of_mem_lineMatches ha
      have h2 : j + 1 < b.line := lt_line_of_mem_searchFrom hb
      exact Or.inl (by omega)

/-- C7: a match is reported exactly for each regex hit `(idx, txt)` on a
nonempty 0-based line `i`, with 1-based line `i + 1`, 1-based column
`idx + 1`, and context equal to the contiguous slice of lines
`[max(0, i - contextLines), min(lastLine, i + contextLines)]` joined with
newlines (`contextBlock`); and whenever the per-line regex offsets are
strictly ascending (as the `regex.exec` loop guarantees), the matches of a
file are ordered by ascending line, then ascending column. -/
theorem searchInFiles_matches_law (e : ExecAll) (lines : List Line) (ctx : Nat) :
    (∀ m : SearchMatch, m ∈ searchMatches e lines ctx ↔
      ∃ i l, lines[i]? = some l ∧ l ≠ [] ∧ ∃ p ∈ e l,
        m = ⟨i + 1, p.1 + 1, p.2, contextBlock lines ctx i⟩) ∧
    ((∀ l, List.Pairwise (· < ·) ((e l).map Prod.fst)) →
      List.Pairwise (fun a b : SearchMatch =>
        a.line < b.line ∨ (a.line = b.line ∧ a.column < b.column))
        (searchMatches e lines ctx)) := by
  constructor
  · intro m
    have h := mem_searchFrom_iff e lines ctx 0 lines m
    simpa [searchMatches] using h
  · intro hexec
    exact pairwise_searchFrom e lines ctx hexec 0 lines

/-- C7 witness: a concrete oracle returning one hit at offset 0 per line
(strictly ascending trivially) on two lines. -/
theorem searchInFiles_matches_law_witness :
    List.Pairwise (fun a b : SearchMatch =>
      a.line < b.line ∨ (a.line = b.line ∧ a.column < b.column))
      (searchMatches (fun l => [(0, l.take 1)]) [['a', 'b'], ['c']] 1) :=
  (searchInFiles_matches_law (fun l => [(0, l.take 1)]) [['a', 'b'], ['c']] 1).2
    (fun l => by simp)

end FsMcp
